import Mathlib

/-!
Verification of the m2py Power Query (M) → pandas translator and its
cross-query dependency resolver.

The development shallowly embeds the functions of `m2py_core.py` and
`query_resolver.py` (plus the CLI guard of `m2py_cli.py`) over `List Char`
and `String`.  Python strings are modelled as Lean strings; Python `str`
methods (`strip`, `rstrip`, slicing) and the ASCII fragment of the `re`
character classes (`\w`, `\s`, `\d`, `[A-Za-z_]`, …) are modelled by
explicit character-code predicates.  Python dictionaries are modelled by
association lists in insertion order (dict keys are unique, which appears
as a `Nodup` hypothesis where relevant), and Python sets by deduplicated
lists (only membership and cardinality of these sets are ever used by the
source, so the representation is faithful).
-/

namespace M2py

/-! ### Character classes (ASCII fragment of Python `re` / `str` semantics) -/

/-- ASCII decimal digit, the `\d` / `[0-9]` class. -/
def isDigitChar (c : Char) : Bool := decide (48 ≤ c.toNat ∧ c.toNat ≤ 57)

/-- ASCII upper-case letter `[A-Z]`. -/
def isUpperChar (c : Char) : Bool := decide (65 ≤ c.toNat ∧ c.toNat ≤ 90)

/-- ASCII lower-case letter `[a-z]`. -/
def isLowerChar (c : Char) : Bool := decide (97 ≤ c.toNat ∧ c.toNat ≤ 122)

/-- ASCII letter `[A-Za-z]`. -/
def isLetterChar (c : Char) : Bool := isUpperChar c || isLowerChar c

/-- The `re` word class `[0-9A-Za-z_]` (ASCII fragment of `\w`). -/
def isWordChar (c : Char) : Bool := isLetterChar c || isDigitChar c || c == '_'

/-- Characters stripped by Python `str.strip()` (ASCII whitespace). -/
def pyWsChar (c : Char) : Bool :=
  decide (c.toNat = 32 ∨ c.toNat = 9 ∨ c.toNat = 10 ∨ c.toNat = 13 ∨ c.toNat = 11 ∨ c.toNat = 12)

/-- ASCII lower-casing of a character (Python `str.lower`, ASCII fragment). -/
def toLowerChar (c : Char) : Char :=
  if isUpperChar c then Char.ofNat (c.toNat + 32) else c

/-! ### Python string-method helpers over `List Char` -/

/-- Drop the trailing characters satisfying `p` (right half of `strip`). -/
def dropTrailing (p : Char → Bool) (l : List Char) : List Char :=
  (l.reverse.dropWhile p).reverse

/-- Python `str.strip(chars)`: drop characters satisfying `p` at both ends. -/
def stripBoth (p : Char → Bool) (l : List Char) : List Char :=
  dropTrailing p (l.dropWhile p)

/-- Python `str.strip()` (whitespace at both ends). -/
def pyStrip (l : List Char) : List Char := stripBoth pyWsChar l

/-- Python `str.rstrip(",")`: drop trailing commas. -/
def rstripComma (l : List Char) : List Char := dropTrailing (fun c => c == ',') l

/-! ### `m2py_core._normalize_var`

Translation of `m2py_core._normalize_var` (m2py_core.py lines 13–25),
staged so that each Python statement is one Lean definition. -/

/-- `if name.startswith('#"') and name.endswith('"'): name = name[2:-1]`. -/
def normUnwrap (s1 : List Char) : List Char :=
  if s1.take 2 = ['#', '"'] ∧ s1.getLast? = some '"'
  then (s1.drop 2).dropLast else s1

/-- `name = name.strip().strip('"').strip("'")`. -/
def normStripQuotes (s2 : List Char) : List Char :=
  stripBoth (fun c => c == '\'') (stripBoth (fun c => c == '"') (pyStrip s2))

/-- `name = re.sub(r"[^0-9A-Za-z_]", "_", name)`. -/
def normSubst (s3 : List Char) : List Char :=
  s3.map (fun c => if isWordChar c then c else '_')

/-- `if re.match(r"^\d", name): name = "_" + name`. -/
def normGuardDigit : List Char → List Char
  | [] => []
  | c :: rest => if isDigitChar c then '_' :: c :: rest else c :: rest

/-- `_normalize_var` over `List Char`: the composition of its statements,
ending in `return name or "step"`. -/
def normalizeVarCore (s : List Char) : List Char :=
  let s5 := normGuardDigit (normSubst (normStripQuotes (normUnwrap (pyStrip s))))
  if s5 = [] then ['s', 't', 'e', 'p'] else s5

/-- String-level wrapper for `m2py_core._normalize_var`. -/
def _normalize_var (s : String) : String := String.mk (normalizeVarCore s.data)

/-- Recognizer for the target-identifier shape `[A-Za-z_][A-Za-z0-9_]*`. -/
def isValidIdentCore : List Char → Bool
  | [] => false
  | c :: rest => (isLetterChar c || c == '_') && rest.all isWordChar

/-- A string matching `[A-Za-z_][A-Za-z0-9_]*`. -/
def isValidIdent (s : String) : Bool := isValidIdentCore s.data

/-! ### Lemmas about the normalizer -/

theorem isWordChar_not_ws {c : Char} (h : isWordChar c = true) : pyWsChar c = false := by
  simp only [isWordChar, isLetterChar, isUpperChar, isLowerChar, isDigitChar,
    Bool.or_eq_true, decide_eq_true_eq, beq_iff_eq] at h
  simp only [pyWsChar, decide_eq_false_iff_not]
  rcases h with ((h | h) | h) | h
  · omega
  · omega
  · omega
  · subst h; decide

theorem isLetterChar_not_digit {c : Char} (h : isLetterChar c = true) :
    isDigitChar c = false := by
  simp only [isLetterChar, isUpperChar, isLowerChar, Bool.or_eq_true,
    decide_eq_true_eq] at h
  simp only [isDigitChar, decide_eq_false_iff_not]
  omega

theorem word_not_digit_is_letter_or_underscore {c : Char}
    (hw : isWordChar c = true) (hd : isDigitChar c = false) :
    (isLetterChar c || c == '_') = true := by
  simp only [isWordChar, Bool.or_eq_true] at hw
  rcases hw with (h | h) | h
  · simp [h]
  · rw [h] at hd; cases hd
  · simp [h]

theorem letter_or_underscore_not_digit {c : Char}
    (h : (isLetterChar c || c == '_') = true) : isDigitChar c = false := by
  rcases Bool.or_eq_true _ _ |>.mp h with h | h
  · exact isLetterChar_not_digit h
  · have : c = '_' := by simpa using h
    subst this; decide

theorem letter_or_underscore_word {c : Char}
    (h : (isLetterChar c || c == '_') = true) : isWordChar c = true := by
  rcases Bool.or_eq_true _ _ |>.mp h with h | h
  · simp [isWordChar, h]
  · simp [isWordChar, h]

theorem dropWhile_eq_self_of_head_not {p : Char → Bool} {l : List Char}
    (h : ∀ c ∈ l.head?, p c = false) : l.dropWhile p = l := by
  cases l with
  | nil => rfl
  | cons c rest =>
    have : p c = false := h c rfl
    simp [List.dropWhile, this]

theorem dropTrailing_eq_self {p : Char → Bool} {l : List Char}
    (h : ∀ c ∈ l, p c = false) : dropTrailing p l = l := by
  unfold dropTrailing
  rw [dropWhile_eq_self_of_head_not, List.reverse_reverse]
  intro c hc
  exact h c (List.mem_reverse.mp (List.mem_of_mem_head? hc))

theorem stripBoth_eq_self {p : Char → Bool} {l : List Char}
    (h : ∀ c ∈ l, p c = false) : stripBoth p l = l := by
  unfold stripBoth
  rw [dropWhile_eq_self_of_head_not (fun c hc => h c (List.mem_of_mem_head? hc))]
  exact dropTrailing_eq_self h

theorem normSubst_all_word (s : List Char) : ∀ c ∈ normSubst s, isWordChar c = true := by
  intro c hc
  rcases List.mem_map.mp hc with ⟨a, _, ha⟩
  by_cases h : isWordChar a = true
  · rw [← ha]; simp [h]
  · rw [← ha]; simp [h]; decide

/-- Every output of the normalizer core matches `[A-Za-z_][A-Za-z0-9_]*`. -/
theorem normalizeVarCore_valid (s : List Char) :
    isValidIdentCore (normalizeVarCore s) = true := by
  unfold normalizeVarCore
  have hword := normSubst_all_word (normStripQuotes (normUnwrap (pyStrip s)))
  cases hm : normSubst (normStripQuotes (normUnwrap (pyStrip s))) with
  | nil => simp [hm, normGuardDigit]; decide
  | cons c rest =>
    rw [hm] at hword
    have hc : isWordChar c = true := hword c (List.mem_cons_self c rest)
    have hrest : rest.all isWordChar = true :=
      List.all_eq_true.mpr (fun x hx => hword x (List.mem_cons_of_mem c hx))
    simp only [hm, normGuardDigit]
    by_cases hd : isDigitChar c = true
    · simp only [hd, if_true]
      simp [isValidIdentCore, hc, hrest]
    · have hd' : isDigitChar c = false := Bool.eq_false_iff.mpr hd
      simp only [hd', Bool.false_eq_true, if_false]
      simp [isValidIdentCore, hrest, word_not_digit_is_letter_or_underscore hc hd']

/-- The normalizer core fixes any list already of identifier shape. -/
theorem normalizeVarCore_fixed (s : List Char) (h : isValidIdentCore s = true) :
    normalizeVarCore s = s := by
  cases s with
  | nil => simp [isValidIdentCore] at h
  | cons c rest =>
    simp only [isValidIdentCore, Bool.and_eq_true, List.all_eq_true] at h
    obtain ⟨hc, hrest⟩ := h
    have hcword : isWordChar c = true := letter_or_underscore_word hc
    have hall : ∀ x ∈ c :: rest, isWordChar x = true := by
      intro x hx
      rcases List.mem_cons.mp hx with h | h
      · subst h; exact hcword
      · exact hrest x h
    have hstrip : pyStrip (c :: rest) = c :: rest :=
      stripBoth_eq_self (fun x hx => isWordChar_not_ws (hall x hx))
    have hchash : c ≠ '#' := by
      intro hcc
      subst hcc
      simp [isWordChar, isLetterChar, isUpperChar, isLowerChar, isDigitChar] at hcword
    have hwrap : normUnwrap (c :: rest) = c :: rest := by
      unfold normUnwrap
      rw [if_neg]
      rintro ⟨h1, _⟩
      exact hchash (by simpa [List.take] using congrArg List.head? h1)
    have hnoquote : ∀ x ∈ c :: rest, (x == '"') = false := by
      intro x hx
      have hxw := hall x hx
      simp only [beq_eq_false_iff_ne, ne_eq]
      intro hxq
      subst hxq
      simp [isWordChar, isLetterChar, isUpperChar, isLowerChar, isDigitChar] at hxw
    have hnoapos : ∀ x ∈ c :: rest, (x == '\'') = false := by
      intro x hx
      have hxw := hall x hx
      simp only [beq_eq_false_iff_ne, ne_eq]
      intro hxq
      subst hxq
      simp [isWordChar, isLetterChar, isUpperChar, isLowerChar, isDigitChar] at hxw
    have hquotes : normStripQuotes (c :: rest) = c :: rest := by
      unfold normStripQuotes
      rw [hstrip, stripBoth_eq_self hnoquote, stripBoth_eq_self hnoapos]
    have hmap : normSubst (c :: rest) = c :: rest := by
      unfold normSubst
      have hcongr : ∀ x ∈ c :: rest, (if isWordChar x then x else '_') = id x := by
        intro x hx; simp [hall x hx]
      rw [List.map_congr_left hcongr, List.map_id]
    have hguard : normGuardDigit (c :: rest) = c :: rest := by
      simp [normGuardDigit, letter_or_underscore_not_digit hc]
    unfold normalizeVarCore
    rw [hstrip, hwrap, hquotes, hmap, hguard]
    simp

theorem isValidIdent_mk (l : List Char) : isValidIdent (String.mk l) = isValidIdentCore l :=
  rfl

/--
C6: the identifier normalizer `_normalize_var` is total and idempotent — for
every input string it returns a (non-empty) string matching
`[A-Za-z_][A-Za-z0-9_]*`, and it returns any string already of that shape
(in particular its own output) unchanged.
-/
theorem normalize_var_total_idempotent :
    (∀ s : String, isValidIdent (_normalize_var s) = true) ∧
    (∀ s : String, isValidIdent s = true → _normalize_var s = s) := by
  constructor
  · intro s
    unfold _normalize_var
    rw [isValidIdent_mk]
    exact normalizeVarCore_valid s.data
  · intro s h
    unfold _normalize_var
    rw [normalizeVarCore_fixed s.data h]

/-- Witness for C6 at concrete inputs. -/
theorem normalize_var_total_idempotent_witness :
    isValidIdent (_normalize_var "#\"Changed Type\"") = true ∧
    _normalize_var "Changed_Type" = "Changed_Type" :=
  ⟨normalize_var_total_idempotent.1 "#\"Changed Type\"",
   normalize_var_total_idempotent.2 "Changed_Type" (by decide)⟩

/-! ### Idempotence of stripping -/

theorem head?_dropWhile {p : Char → Bool} {l : List Char} {c : Char}
    (h : (l.dropWhile p).head? = some c) : p c = false := by
  induction l with
  | nil => simp [List.dropWhile] at h
  | cons a rest ih =>
    by_cases hp : p a = true
    · rw [List.dropWhile_cons_of_pos hp] at h
      exact ih h
    · rw [List.dropWhile_cons_of_neg hp] at h
      simp only [List.head?_cons, Option.some.injEq] at h
      subst h
      exact Bool.eq_false_iff.mpr hp

theorem getLast?_dropTrailing {p : Char → Bool} {l : List Char} {c : Char}
    (h : (dropTrailing p l).getLast? = some c) : p c = false := by
  unfold dropTrailing at h
  rw [List.getLast?_reverse] at h
  exact head?_dropWhile h

theorem head?_dropTrailing {p : Char → Bool} {l : List Char} {c : Char}
    (h : (dropTrailing p l).head? = some c) : l.head? = some c := by
  unfold dropTrailing at h
  rw [List.head?_reverse] at h
  rcases List.dropWhile_suffix (l := l.reverse) (p := p) with ⟨t, ht⟩
  have hne : l.reverse.dropWhile p ≠ [] := by
    intro hnil
    rw [hnil] at h
    simp at h
  rw [← List.getLast?_reverse, ← ht, List.getLast?_append_of_ne_nil t hne, h]

theorem head?_stripBoth {p : Char → Bool} {l : List Char} {c : Char}
    (h : (stripBoth p l).head? = some c) : p c = false := by
  unfold stripBoth at h
  exact head?_dropWhile (head?_dropTrailing h)

theorem getLast?_stripBoth {p : Char → Bool} {l : List Char} {c : Char}
    (h : (stripBoth p l).getLast? = some c) : p c = false := by
  unfold stripBoth at h
  exact getLast?_dropTrailing h

theorem dropTrailing_eq_self_of_getLast?_not {p : Char → Bool} {l : List Char}
    (h : ∀ c ∈ l.getLast?, p c = false) : dropTrailing p l = l := by
  unfold dropTrailing
  rw [dropWhile_eq_self_of_head_not, List.reverse_reverse]
  intro c hc
  rw [List.head?_reverse] at hc
  exact h c hc

theorem stripBoth_idem (p : Char → Bool) (l : List Char) :
    stripBoth p (stripBoth p l) = stripBoth p l := by
  have h1 : (stripBoth p l).dropWhile p = stripBoth p l :=
    dropWhile_eq_self_of_head_not (fun c hc => head?_stripBoth hc)
  show dropTrailing p ((stripBoth p l).dropWhile p) = stripBoth p l
  rw [h1]
  exact dropTrailing_eq_self_of_getLast?_not (fun c hc => getLast?_stripBoth hc)

theorem pyStrip_idem (l : List Char) : pyStrip (pyStrip l) = pyStrip l :=
  stripBoth_idem pyWsChar l

/-! ### `m2py_core._split_let_body`

Translation of `_split_let_body` (m2py_core.py lines 28–78): a single
left-to-right scan maintaining an inside-string flag (with backslash escapes
honoured), the active quote character, and three signed nesting counters; a
comma is a step boundary only when outside a string with all three counters
zero.  (The source also carries a dead branch for triple-quote delimiters:
`str_delim` is only ever set to a single quote character, so that branch
cannot fire and is not modelled.) -/

/-- Scanner state of `_split_let_body`: three signed depth counters,
inside-string flag, active quote delimiter, escape flag. -/
structure ScanSt where
  dp : Int
  dbr : Int
  dc : Int
  inStr : Bool
  delim : Char
  esc : Bool
deriving Repr, DecidableEq

/-- Initial scanner state. -/
def initScan : ScanSt := ⟨0, 0, 0, false, '"', false⟩

/-- One character transition of the `_split_let_body` scanner. -/
def scanStep (σ : ScanSt) (ch : Char) : ScanSt :=
  if σ.inStr then
    if σ.esc then { σ with esc := false }
    else if ch = '\\' then { σ with esc := true }
    else if ch = σ.delim then { σ with inStr := false }
    else σ
  else if ch = '"' then { σ with inStr := true, delim := '"' }
  else if ch = '\'' then { σ with inStr := true, delim := '\'' }
  else if ch = '(' then { σ with dp := σ.dp + 1 }
  else if ch = ')' then { σ with dp := σ.dp - 1 }
  else if ch = '[' then { σ with dbr := σ.dbr + 1 }
  else if ch = ']' then { σ with dbr := σ.dbr - 1 }
  else if ch = '{' then { σ with dc := σ.dc + 1 }
  else if ch = '}' then { σ with dc := σ.dc - 1 }
  else σ

/-- A comma at scanner state `σ` is a step boundary (not inside a string,
all three depth counters zero). -/
def isBoundary (σ : ScanSt) (ch : Char) : Prop :=
  σ.inStr = false ∧ ch = ',' ∧ σ.dp = 0 ∧ σ.dbr = 0 ∧ σ.dc = 0

instance (σ : ScanSt) (ch : Char) : Decidable (isBoundary σ ch) := by
  unfold isBoundary
  infer_instance

/-- Accumulator of `_split_let_body`: completed (stripped) parts and the
current buffer, plus the scanner state. -/
structure SplitSt where
  parts : List (List Char)
  buf : List Char
  scan : ScanSt

/-- One loop iteration of `_split_let_body`: append the character to the
buffer and update the scanner, or (at a boundary comma) flush the stripped
buffer into the parts list. -/
def splitStepImpl (st : SplitSt) (ch : Char) : SplitSt :=
  if isBoundary st.scan ch then
    { parts := st.parts ++ [pyStrip st.buf], buf := [], scan := st.scan }
  else
    { parts := st.parts, buf := st.buf ++ [ch], scan := scanStep st.scan ch }

/-- Per-part cleanup of `_split_let_body`: `p.strip().rstrip(",")`. -/
def cleanupPart (p : List Char) : List Char := rstripComma (pyStrip p)

/-- The tail of `_split_let_body`: flush a non-empty remaining buffer, then
keep the non-empty cleaned parts. -/
def splitFinalize (st : SplitSt) : List (List Char) :=
  let parts := if pyStrip st.buf ≠ [] then st.parts ++ [pyStrip st.buf] else st.parts
  (parts.map cleanupPart).filter (fun p => p ≠ [])

/-- `_split_let_body` over `List Char`. -/
def splitLetBodyCore (body : List Char) : List (List Char) :=
  splitFinalize (body.foldl splitStepImpl ⟨[], [], initScan⟩)

/-- String-level wrapper for `m2py_core._split_let_body`. -/
def _split_let_body (body : String) : List String :=
  (splitLetBodyCore body.data).map String.mk

/-- Specification-side splitter, following the claim's words: the list of
raw segments of the text between top-level commas, where a top-level comma
is one scanned outside any string literal with all three bracket depth
counters zero. -/
def splitTopAux (σ : ScanSt) : List Char → List (List Char)
  | [] => [[]]
  | ch :: rest =>
    if isBoundary σ ch then
      [] :: splitTopAux σ rest
    else
      match splitTopAux (scanStep σ ch) rest with
      | [] => [[ch]]
      | s :: ss => (ch :: s) :: ss

/-- Specification-side result: the cleaned, non-empty top-level segments in
original order. -/
def specTopLevelSteps (body : String) : List String :=
  (((splitTopAux initScan body.data).map cleanupPart).filter (fun p => p ≠ [])).map String.mk

theorem splitTopAux_ne_nil (σ : ScanSt) (l : List Char) : splitTopAux σ l ≠ [] := by
  cases l with
  | nil => simp [splitTopAux]
  | cons ch rest =>
    by_cases hb : isBoundary σ ch
    · simp [splitTopAux, hb]
    · simp only [splitTopAux, if_neg hb]
      cases splitTopAux (scanStep σ ch) rest with
      | nil => simp
      | cons s ss => simp

/-- Carried-buffer variant of the specification splitter: the current buffer
is prepended to the first remaining segment. -/
def segsWithCarry (buf : List Char) (σ : ScanSt) (l : List Char) : List (List Char) :=
  match splitTopAux σ l with
  | [] => [buf]
  | s :: ss => (buf ++ s) :: ss

theorem cleanupPart_pyStrip (p : List Char) : cleanupPart (pyStrip p) = cleanupPart p := by
  unfold cleanupPart
  rw [pyStrip_idem]

/-- Bridge between the accumulator-based source splitter and the
specification-side splitter. -/
theorem split_bridge (l : List Char) : ∀ (σ : ScanSt) (parts : List (List Char)) (buf : List Char),
    splitFinalize (l.foldl splitStepImpl ⟨parts, buf, σ⟩) =
      ((parts ++ segsWithCarry buf σ l).map cleanupPart).filter (fun p => p ≠ []) := by
  induction l with
  | nil =>
    intro σ parts buf
    simp only [List.foldl_nil, splitFinalize, segsWithCarry, splitTopAux]
    by_cases h : pyStrip buf = []
    · have hc : cleanupPart buf = [] := by
        rw [← cleanupPart_pyStrip, h]
        rfl
      simp [h, List.filter_append, hc]
    · have hc : cleanupPart (pyStrip buf) = cleanupPart buf := cleanupPart_pyStrip buf
      simp [h, List.filter_append, hc]
  | cons ch rest ih =>
    intro σ parts buf
    by_cases hb : isBoundary σ ch
    · rw [List.foldl_cons]
      have hstep : splitStepImpl ⟨parts, buf, σ⟩ ch =
          ⟨parts ++ [pyStrip buf], [], σ⟩ := by
        simp [splitStepImpl, hb]
      rw [hstep, ih σ (parts ++ [pyStrip buf]) []]
      have hseg : segsWithCarry buf σ (ch :: rest) = buf :: splitTopAux σ rest := by
        unfold segsWithCarry
        simp only [splitTopAux, if_pos hb]
        simp
      have hseg0 : segsWithCarry [] σ rest = splitTopAux σ rest := by
        unfold segsWithCarry
        cases hs : splitTopAux σ rest with
        | nil => exact absurd hs (splitTopAux_ne_nil σ rest)
        | cons s ss => simp
      rw [hseg, hseg0]
      simp [List.filter_append, cleanupPart_pyStrip]
    · rw [List.foldl_cons]
      have hstep : splitStepImpl ⟨parts, buf, σ⟩ ch =
          ⟨parts, buf ++ [ch], scanStep σ ch⟩ := by
        simp [splitStepImpl, hb]
      rw [hstep, ih (scanStep σ ch) parts (buf ++ [ch])]
      have hseg : segsWithCarry buf σ (ch :: rest) =
          segsWithCarry (buf ++ [ch]) (scanStep σ ch) rest := by
        unfold segsWithCarry
        simp only [splitTopAux, if_neg hb]
        cases hs : splitTopAux (scanStep σ ch) rest with
        | nil => exact absurd hs (splitTopAux_ne_nil _ rest)
        | cons s ss => simp
      rw [hseg]

theorem mk_ne_empty_of_ne_nil {p : List Char} (h : p ≠ []) : String.mk p ≠ "" := by
  intro hc
  apply h
  have : (String.mk p).data = ("" : String).data := by rw [hc]
  simpa using this

/--
C7: `_split_let_body` returns exactly the non-empty cleaned top-level
segments of its input, in original order — a comma separates steps only when
it is scanned outside any string literal with round, square and curly
bracket depth all zero; commas nested inside bracket pairs or string
literals stay inside their step.  Every returned string is non-empty.
-/
theorem split_let_body_exact (body : String) :
    _split_let_body body = specTopLevelSteps body ∧
    ∀ s ∈ _split_let_body body, s ≠ "" := by
  constructor
  · unfold _split_let_body specTopLevelSteps splitLetBodyCore
    rw [split_bridge body.data initScan [] []]
    have hseg : segsWithCarry [] initScan body.data = splitTopAux initScan body.data := by
      unfold segsWithCarry
      cases hs : splitTopAux initScan body.data with
      | nil => exact absurd hs (splitTopAux_ne_nil _ _)
      | cons s ss => simp
    rw [hseg]
    simp
  · intro s hs
    unfold _split_let_body at hs
    rcases List.mem_map.mp hs with ⟨p, hp, hps⟩
    unfold splitLetBodyCore splitFinalize at hp
    have hpne : p ≠ [] := by
      have := List.of_mem_filter hp
      simpa using this
    rw [← hps]
    exact mk_ne_empty_of_ne_nil hpne

/-! ### `query_resolver.py` — the dependency resolver

Queries are a `{name → script}` dict, modelled as an association list in
insertion order; dict keys are unique, which appears as a `Nodup` hypothesis
on the key list.  Python sets of names are modelled as deduplicated lists
(the source only uses membership and cardinality of these sets). -/

/-- One line of `_strip_line_comments` (query_resolver.py lines 33–60):
keep characters, tracking string literals, and cut the line at a `//` that
occurs outside a string. -/
def stripLine (inStr : Bool) (quote : Char) : List Char → List Char
  | [] => []
  | ch :: rest =>
    if inStr = false ∧ (ch = '"' ∨ ch = '\'') then ch :: stripLine true ch rest
    else if inStr then
      if ch = quote then ch :: stripLine false quote rest
      else ch :: stripLine true quote rest
    else if ch = '/' ∧ rest.head? = some '/' then []
    else ch :: stripLine false quote rest

/-- Split a character list at newline characters (Python `splitlines`,
modelled for `'\n'` terminators). -/
def splitLinesCore : List Char → List (List Char)
  | [] => [[]]
  | '\n' :: rest => [] :: splitLinesCore rest
  | c :: rest =>
    match splitLinesCore rest with
    | [] => [[c]]
    | s :: ss => (c :: s) :: ss

/-- Join lines with newline characters (Python `"\n".join`). -/
def joinLines : List (List Char) → List Char
  | [] => []
  | [l] => l
  | l :: ls => l ++ '\n' :: joinLines ls

/-- `query_resolver._strip_line_comments`: strip `//` line comments outside
string literals, line by line. -/
def _strip_line_comments (m : String) : String :=
  String.mk (joinLines ((splitLinesCore m.data).map (stripLine false '"')))

/-- Fuel-indexed scan for the non-overlapping `re.findall` of
`REF_QUOTED = #"([^"]+)"` (query_resolver.py line 20).  Every step consumes
at least one character, so `l.length` fuel always finishes the scan; the
fuel only makes the recursion structural. -/
def quotedRefsAux : Nat → List Char → List (List Char)
  | 0, _ => []
  | _, [] => []
  | fuel + 1, '#' :: '"' :: rest =>
    if (rest.takeWhile (fun c => c != '"')) ≠ [] ∧
        (rest.drop (rest.takeWhile (fun c => c != '"')).length).head? = some '"' then
      (rest.takeWhile (fun c => c != '"')) ::
        quotedRefsAux fuel (rest.drop ((rest.takeWhile (fun c => c != '"')).length + 1))
    else
      quotedRefsAux fuel ('"' :: rest)
  | fuel + 1, _ :: rest => quotedRefsAux fuel rest

/-- `re.findall` of `REF_QUOTED = #"([^"]+)"`: left-to-right non-overlapping
matches, returning the quoted contents. -/
def quotedRefs (l : List Char) : List (List Char) := quotedRefsAux l.length l

/-- Fuel-indexed scan for the `re.findall` of
`IDENT = \b([A-Za-z_][A-Za-z0-9_]*)\b` (query_resolver.py line 23): the
maximal word-character runs that start with a letter or underscore (a run
starting with a digit has no interior word boundary, so the pattern cannot
fire anywhere inside it). -/
def identTokensAux : Nat → List Char → List (List Char)
  | 0, _ => []
  | _, [] => []
  | fuel + 1, c :: rest =>
    if isWordChar c then
      if isDigitChar c then identTokensAux fuel (rest.dropWhile isWordChar)
      else (c :: rest.takeWhile isWordChar) :: identTokensAux fuel (rest.dropWhile isWordChar)
    else identTokensAux fuel rest

/-- All matches of the bare-identifier pattern `IDENT`. -/
def identTokens (l : List Char) : List (List Char) := identTokensAux l.length l

/-- `query_resolver.M_KEYWORDS`. -/
def M_KEYWORDS : List String :=
  ["let", "in", "each", "and", "or", "not", "true", "false", "null",
   "as", "if", "then", "else", "error", "try", "otherwise"]

/-- ASCII `str.lower`. -/
def toLowerStr (s : String) : String := String.mk (s.data.map toLowerChar)

/-- `query_resolver.find_query_refs` (lines 63–80): quoted references
(unconditionally) plus bare identifier tokens that match a known name and
are not keywords; the Python set is modelled as a deduplicated list. -/
def find_query_refs (m : String) (known : List String) : List String :=
  let src := _strip_line_comments m
  let q := (quotedRefs src.data).map String.mk
  let b := ((identTokens src.data).map String.mk).filter
    (fun n => decide (n ∈ known ∧ toLowerStr n ∉ M_KEYWORDS))
  (q ++ b).dedup

/-- The key list of a query mapping (Python dict key order). -/
def queryKeys (qs : List (String × String)) : List String := qs.map Prod.fst

/-- The dependency graph of `topo_order_queries` (lines 92–95) and the
reverse adjacency of `dependency_chain_for` (lines 133–137), which are the
same construction: `name → {r ∈ refs(script) | r known, r ≠ name}`. -/
def queryGraph (qs : List (String × String)) : List (String × List String) :=
  qs.map (fun nm =>
    (nm.1, (find_query_refs nm.2 (queryKeys qs)).filter
      (fun r => decide (r ∈ queryKeys qs ∧ r ≠ nm.1))))

/-- Dependency-set lookup in the graph (Python `graph[n]` / `rev[n]` with
`defaultdict(set)` semantics). -/
def depsOf (g : List (String × List String)) (n : String) : List String :=
  (List.lookup n g).getD []

/-- Initial in-degrees (lines 97–100): `indeg[n] = |deps(n)|`. -/
def indegInit (g : List (String × List String)) : String → Int :=
  fun n => ((List.lookup n g).getD []).length

/-- The inner `for v, deps in graph.items()` loop of the Kahn sweep
(lines 108–112), run after `u` was appended to `order`: decrement the
in-degree of every dependent of `u` and enqueue it when it reaches zero and
is in neither `order` nor the queue. -/
def sweepInner (order : List String) (u : String) :
    List (String × List String) → (String → Int) → List String →
    (String → Int) × List String
  | [], ind, q => (ind, q)
  | (v, deps) :: rest, ind, q =>
    if u ∈ deps then
      sweepInner order u rest (fun x => if x = v then ind x - 1 else ind x)
        (if ind v - 1 = 0 ∧ v ∉ order ∧ v ∉ q then q ++ [v] else q)
    else
      sweepInner order u rest ind q

/-- The `while q:` loop of the Kahn sweep (lines 105–112), with explicit
fuel.  Each iteration moves one queue element into `order`; `order` stays
duplicate-free and inside the key set, so `|keys|` fuel always exhausts the
queue (`sweep_fuel_stable` below). -/
def sweep : Nat → List (String × List String) → (String → Int) →
    List String → List String → List String
  | 0, _, _, _, order => order
  | fuel + 1, g, ind, q, order =>
    match q with
    | [] => order
    | u :: qrest =>
      sweep fuel g (sweepInner (order ++ [u]) u g ind qrest).1
        (sweepInner (order ++ [u]) u g ind qrest).2 (order ++ [u])

/-- The list produced by the Kahn sweep of `topo_order_queries`, started
from the zero-in-degree queue with `|keys|` fuel. -/
def sweepResult (qs : List (String × String)) : List String :=
  sweep (queryKeys qs).length (queryGraph qs) (indegInit (queryGraph qs))
    ((queryKeys qs).filter (fun n => decide (indegInit (queryGraph qs) n = 0))) []

/-- `query_resolver.topo_order_queries` (lines 83–116): Kahn sweep from the
zero-in-degree queue, then append the names not reached by the sweep in
original dict order. -/
def topo_order_queries (qs : List (String × String)) : List String :=
  sweepResult qs ++ (queryKeys qs).filter (fun n => decide (n ∉ sweepResult qs))

/-- Fuel bound for the stack-based DFS of `dependency_chain_for`: one more
than the total size of the adjacency structure. -/
def dfsFuel (g : List (String × List String)) : Nat :=
  g.foldr (fun e a => a + 1 + e.2.length) 1

/-- The `while stack:` DFS of `dependency_chain_for` (lines 140–147),
collecting the set of nodes reachable from the stack.  The Python list used
as a stack pops from its end; the Lean list keeps the top at the head, so
`stack.extend(rev[cur])` becomes prepending the reversed dependency list. -/
def dfsLoop : Nat → List (String × List String) → List String → List String → List String
  | 0, _, seen, _ => seen
  | fuel + 1, g, seen, stack =>
    match stack with
    | [] => seen
    | cur :: rest =>
      if cur ∈ seen then dfsLoop fuel g seen rest
      else dfsLoop fuel g (seen ++ [cur]) ((depsOf g cur).reverse ++ rest)

/-- The set of nodes the DFS of `dependency_chain_for` reaches from the
target (the final `seen` set). -/
def chainSeen (qs : List (String × String)) (target : String) : List String :=
  dfsLoop (dfsFuel (queryGraph qs)) (queryGraph qs) [] [target]

/-- `query_resolver.dependency_chain_for` (lines 119–151): `[]` for an
unknown target, otherwise the global order restricted to the set of nodes
reached from the target along dependency edges. -/
def dependency_chain_for (target : String) (qs : List (String × String)) : List String :=
  if target ∉ queryKeys qs then []
  else (topo_order_queries qs).filter (fun n => decide (n ∈ chainSeen qs target))

/-- The CLI guard of `m2py_cli.main` (m2py_cli.py lines 140–143): an unknown
`--query` name is rejected with a `Query not found` error before any chain
is requested; a known name gets its dependency chain. -/
def cli_chain_for (target : String) (qs : List (String × String)) :
    Except String (List String) :=
  if target ∉ queryKeys qs then Except.error ("Query not found: " ++ target)
  else Except.ok (dependency_chain_for target qs)

/-! ### Totality of the topological sweep (claim C2) -/

theorem sweepInner_inv (order : List String) (u : String) (S : List String)
    (g : List (String × List String)) (hg : ∀ x ∈ g.map Prod.fst, x ∈ S) :
    ∀ (ind : String → Int) (q : List String),
      q.Nodup → (∀ x ∈ q, x ∉ order) → (∀ x ∈ q, x ∈ S) →
      ((sweepInner order u g ind q).2.Nodup ∧
       (∀ x ∈ (sweepInner order u g ind q).2, x ∉ order) ∧
       (∀ x ∈ (sweepInner order u g ind q).2, x ∈ S)) := by
  induction g with
  | nil =>
    intro ind q h1 h2 h3
    exact ⟨h1, h2, h3⟩
  | cons e rest ih =>
    obtain ⟨v, deps⟩ := e
    have hv : v ∈ S := hg v (by simp)
    have hg' : ∀ x ∈ rest.map Prod.fst, x ∈ S := fun x hx => hg x (by simp [hx])
    intro ind q h1 h2 h3
    by_cases hu : u ∈ deps
    · simp only [sweepInner, if_pos hu]
      by_cases hcond : ind v - 1 = 0 ∧ v ∉ order ∧ v ∉ q
      · rw [if_pos hcond]
        apply ih hg'
        · rw [List.nodup_append]
          refine ⟨h1, List.nodup_singleton v, ?_⟩
          intro a ha hb
          rw [List.mem_singleton] at hb
          subst hb
          exact hcond.2.2 ha
        · intro x hx
          rcases List.mem_append.mp hx with h | h
          · exact h2 x h
          · rw [List.mem_singleton] at h
            subst h
            exact hcond.2.1
        · intro x hx
          rcases List.mem_append.mp hx with h | h
          · exact h3 x h
          · rw [List.mem_singleton] at h
            subst h
            exact hv
      · rw [if_neg hcond]
        exact ih hg' _ q h1 h2 h3
    · simp only [sweepInner, if_neg hu]
      exact ih hg' ind q h1 h2 h3

theorem sweep_inv (S : List String) (g : List (String × List String))
    (hg : ∀ x ∈ g.map Prod.fst, x ∈ S) :
    ∀ (fuel : Nat) (ind : String → Int) (q order : List String),
      order.Nodup → (∀ x ∈ order, x ∈ S) → q.Nodup →
      (∀ x ∈ q, x ∉ order) → (∀ x ∈ q, x ∈ S) →
      ((sweep fuel g ind q order).Nodup ∧ ∀ x ∈ sweep fuel g ind q order, x ∈ S) := by
  intro fuel
  induction fuel with
  | zero =>
    intro ind q order h1 h2 _ _ _
    exact ⟨h1, h2⟩
  | succ n ih =>
    intro ind q order h1 h2 h3 h4 h5
    cases q with
    | nil => exact ⟨h1, h2⟩
    | cons u qrest =>
      simp only [sweep]
      have hu_not : u ∉ order := h4 u (List.mem_cons_self u qrest)
      have hu_S : u ∈ S := h5 u (List.mem_cons_self u qrest)
      have horder2 : (order ++ [u]).Nodup := by
        rw [List.nodup_append]
        refine ⟨h1, List.nodup_singleton u, ?_⟩
        intro a ha hb
        rw [List.mem_singleton] at hb
        subst hb
        exact hu_not ha
      have horder2S : ∀ x ∈ order ++ [u], x ∈ S := by
        intro x hx
        rcases List.mem_append.mp hx with h | h
        · exact h2 x h
        · rw [List.mem_singleton] at h
          subst h
          exact hu_S
      have hqrest_nodup : qrest.Nodup := (List.nodup_cons.mp h3).2
      have hqrest_dis : ∀ x ∈ qrest, x ∉ order ++ [u] := by
        intro x hx
        rw [List.mem_append, List.mem_singleton]
        rintro (h | h)
        · exact h4 x (List.mem_cons_of_mem u hx) h
        · subst h
          exact (List.nodup_cons.mp h3).1 hx
      have hinner := sweepInner_inv (order ++ [u]) u S g hg ind qrest
        hqrest_nodup hqrest_dis (fun x hx => h5 x (List.mem_cons_of_mem u hx))
      exact ih _ _ _ horder2 horder2S hinner.1 hinner.2.1 hinner.2.2

theorem queryGraph_keys (qs : List (String × String)) :
    (queryGraph qs).map Prod.fst = queryKeys qs := by
  simp [queryGraph, queryKeys]

theorem sweepResult_nodup_subset (qs : List (String × String))
    (h : (queryKeys qs).Nodup) :
    (sweepResult qs).Nodup ∧ ∀ x ∈ sweepResult qs, x ∈ queryKeys qs := by
  have hg : ∀ x ∈ (queryGraph qs).map Prod.fst, x ∈ queryKeys qs := by
    rw [queryGraph_keys]
    exact fun x hx => hx
  exact sweep_inv (queryKeys qs) (queryGraph qs) hg (queryKeys qs).length
    (indegInit (queryGraph qs)) _ [] List.nodup_nil (by simp) (h.filter _)
    (by simp) (fun x hx => List.mem_of_mem_filter hx)

theorem nodup_subset_perm_append_filter {l ks : List String} (hl : l.Nodup)
    (hk : ks.Nodup) (hsub : ∀ x ∈ l, x ∈ ks) :
    (l ++ ks.filter (fun n => decide (n ∉ l))).Perm ks := by
  rw [List.perm_iff_count]
  intro a
  rw [List.count_append]
  by_cases hal : a ∈ l
  · have h1 : l.count a = 1 := List.count_eq_one_of_mem hl hal
    have h2 : (ks.filter (fun n => decide (n ∉ l))).count a = 0 := by
      rw [List.count_eq_zero]
      intro hmem
      have := List.of_mem_filter hmem
      simp only [decide_eq_true_eq] at this
      exact this hal
    have h3 : ks.count a = 1 := List.count_eq_one_of_mem hk (hsub a hal)
    omega
  · have h1 : l.count a = 0 := List.count_eq_zero.mpr hal
    by_cases hak : a ∈ ks
    · have h2 : (ks.filter (fun n => decide (n ∉ l))).count a = ks.count a :=
        List.count_filter (by simp [hal])
      rw [h1, h2]
      omega
    · have h2 : ks.count a = 0 := List.count_eq_zero.mpr hak
      have h3 : (ks.filter (fun n => decide (n ∉ l))).count a = 0 := by
        rw [List.count_eq_zero]
        intro hmem
        exact hak (List.mem_of_mem_filter hmem)
      omega

theorem topo_perm_aux (qs : List (String × String)) (h : (queryKeys qs).Nodup) :
    (topo_order_queries qs).Perm (queryKeys qs) := by
  have hsw := sweepResult_nodup_subset qs h
  exact nodup_subset_perm_append_filter hsw.1 h hsw.2

/--
C2: for every query mapping (a Python dict, so its keys are distinct),
`topo_order_queries` returns a permutation of exactly the supplied names —
every name appears exactly once, none missing, no duplicates — regardless
of cyclic or dangling references.
-/
theorem topo_order_queries_perm (qs : List (String × String))
    (h : (queryKeys qs).Nodup) :
    (topo_order_queries qs).Perm (queryKeys qs) :=
  topo_perm_aux qs h

/-- Witness for C2: a concrete mapping with a dangling and a cyclic
reference still yields a permutation of its keys. -/
theorem topo_order_queries_perm_witness :
    (queryKeys [("A", "#\"B\" + Missing"), ("B", "#\"A\""), ("C", "1")]).Nodup ∧
    (topo_order_queries [("A", "#\"B\" + Missing"), ("B", "#\"A\""), ("C", "1")]).Perm
      (queryKeys [("A", "#\"B\" + Missing"), ("B", "#\"A\""), ("C", "1")]) :=
  ⟨by decide,
   topo_order_queries_perm [("A", "#\"B\" + Missing"), ("B", "#\"A\""), ("C", "1")] (by decide)⟩

/-! ### Cycle handling (claim C5) -/

/--
C5 counterexample: the nodes left over by the topological sweep are appended
in the mapping's original key order, not in (alphabetical) name order. For
the cyclic mapping `{"B": ref A, "A": ref B}` the sweep reaches nothing and
the result is `["B", "A"]`, not the name-ordered `["A", "B"]`.
-/
theorem topo_cycle_not_name_order :
    topo_order_queries [("B", "#\"A\""), ("A", "#\"B\"")] = ["B", "A"] ∧
    topo_order_queries [("B", "#\"A\""), ("A", "#\"B\"")] ≠ ["A", "B"] := by
  decide

/--
C5 (amended): for every mapping with distinct names, `topo_order_queries`
never fails and drops nothing — every supplied name occurs exactly once —
and the names not reached by the queue-based sweep (those on or depending
on a cycle) are appended after the sweep's prefix in the mapping's original
(insertion) order, which is deterministic but is the input order rather
than alphabetical name order.
-/
theorem topo_order_cycle_tolerant (qs : List (String × String))
    (h : (queryKeys qs).Nodup) :
    (∀ n ∈ queryKeys qs, (topo_order_queries qs).count n = 1) ∧
    topo_order_queries qs =
      sweepResult qs ++ (queryKeys qs).filter (fun n => decide (n ∉ sweepResult qs)) := by
  have hsw := sweepResult_nodup_subset qs h
  have hperm := nodup_subset_perm_append_filter hsw.1 h hsw.2
  refine ⟨?_, rfl⟩
  intro n hn
  unfold topo_order_queries
  rw [hperm.count_eq]
  exact List.count_eq_one_of_mem h hn

/-- Witness for C5 at the two-element cycle. -/
theorem topo_order_cycle_tolerant_witness :
    (queryKeys [("A", "#\"B\""), ("B", "#\"A\"")]).Nodup ∧
    ∀ n ∈ queryKeys [("A", "#\"B\""), ("B", "#\"A\"")],
      (topo_order_queries [("A", "#\"B\""), ("B", "#\"A\"")]).count n = 1 :=
  ⟨by decide, (topo_order_cycle_tolerant [("A", "#\"B\""), ("B", "#\"A\"")] (by decide)).1⟩

/-! ### Unknown chain target (claim C4) -/

/--
C4 counterexample: requesting a dependency chain for a target absent from
the mapping makes `dependency_chain_for` silently return the empty list —
the resolver itself reports no "unknown query" error (its docstring says
"If the target doesn't exist, returns []").
-/
theorem dependency_chain_unknown_empty :
    dependency_chain_for "B" [("A", "1")] = [] ∧ "B" ∉ queryKeys [("A", "1")] := by
  decide

/--
C4 (amended): for a target not present in the mapping, the resolver's
`dependency_chain_for` silently returns `[]`; the clear "Query not found"
error for an unknown query is reported by the CLI caller, which rejects
the name before requesting any chain.
-/
theorem dependency_chain_unknown_guard (target : String) (qs : List (String × String))
    (h : target ∉ queryKeys qs) :
    dependency_chain_for target qs = [] ∧
    cli_chain_for target qs = Except.error ("Query not found: " ++ target) := by
  constructor
  · unfold dependency_chain_for
    rw [if_pos h]
  · unfold cli_chain_for
    rw [if_pos h]

/-- Witness for C4 at a concrete unknown target. -/
theorem dependency_chain_unknown_guard_witness :
    dependency_chain_for "B" [("A", "1")] = [] ∧
    cli_chain_for "B" [("A", "1")] = Except.error ("Query not found: " ++ "B") :=
  dependency_chain_unknown_guard "B" [("A", "1")] (by decide)

/-! ### Reference detection (claim C9) -/

/--
C9 counterexample: an escaped-quoted reference is reported by
`find_query_refs` even when its content is not a known query name — here
`#"Zed"` is returned although `"Zed"` is not among the known names, so
membership in the result is not restricted to known names.
-/
theorem find_query_refs_unknown_quoted_kept :
    "Zed" ∈ find_query_refs "#\"Zed\"" ["A"] ∧ "Zed" ∉ (["A"] : List String) := by
  decide

theorem mem_depsOf_mapped (ks : List String) (qs : List (String × String))
    (n d : String) :
    d ∈ depsOf (qs.map (fun nm => (nm.1, (find_query_refs nm.2 ks).filter
      (fun r => decide (r ∈ ks ∧ r ≠ nm.1))))) n → d ∈ ks ∧ d ≠ n := by
  induction qs with
  | nil =>
    intro h
    simp [depsOf] at h
  | cons nm rest ih =>
    intro h
    unfold depsOf at h
    rw [List.map_cons, List.lookup_cons] at h
    by_cases hk : n == nm.1
    · rw [hk] at h
      simp only [Option.getD_some] at h
      have hp := List.of_mem_filter h
      simp only [decide_eq_true_eq] at hp
      have : n = nm.1 := by simpa using hk
      exact ⟨hp.1, by rw [this]; exact hp.2⟩
    · rw [Bool.eq_false_iff.mpr hk] at h
      exact ih h

/--
C9 (amended): `find_query_refs` returns a name `n` iff `n` occurs in the
comment-stripped text as an escaped-quoted reference `#"n"` (whether or not
`n` is known), or as a bare identifier token that equals a known query name
and whose lower-casing is not one of the fixed source-language keywords;
the dependency graph built on top of it keeps only known names and removes
self-references, so a query never appears among its own dependencies.
-/
theorem find_query_refs_characterization :
    (∀ (m : String) (known : List String) (n : String),
      n ∈ find_query_refs m known ↔
        (n ∈ (quotedRefs (_strip_line_comments m).data).map String.mk ∨
         (n ∈ (identTokens (_strip_line_comments m).data).map String.mk ∧
          n ∈ known ∧ toLowerStr n ∉ M_KEYWORDS))) ∧
    (∀ (qs : List (String × String)) (n : String), n ∉ depsOf (queryGraph qs) n) := by
  constructor
  · intro m known n
    unfold find_query_refs
    rw [List.mem_dedup, List.mem_append]
    constructor
    · rintro (h | h)
      · exact Or.inl h
      · have hm := List.mem_of_mem_filter h
        have hp := List.of_mem_filter h
        simp only [decide_eq_true_eq] at hp
        exact Or.inr ⟨hm, hp⟩
    · rintro (h | h)
      · exact Or.inl h
      · refine Or.inr (List.mem_filter.mpr ⟨h.1, ?_⟩)
        simp only [decide_eq_true_eq]
        exact h.2
  · intro qs n hmem
    have := mem_depsOf_mapped (queryKeys qs) qs n n (by
      unfold queryGraph at hmem
      exact hmem)
    exact this.2 rfl

/-! ### The DFS of `dependency_chain_for` (claim C3) -/

/-- One dependency edge: `b` is among the direct dependencies of `a`. -/
def depEdge (g : List (String × List String)) (a b : String) : Prop :=
  b ∈ depsOf g a

/-- Whatever the DFS collects is reachable: every element of the final
`seen` list satisfies any property `R` that holds on the stack, holds on
`seen`, and is closed under dependency edges. -/
theorem dfsLoop_sound (g : List (String × List String)) (R : String → Prop)
    (hclosed : ∀ a b, R a → b ∈ depsOf g a → R b) :
    ∀ (fuel : Nat) (seen stack : List String),
      (∀ x ∈ seen, R x) → (∀ x ∈ stack, R x) →
      ∀ x ∈ dfsLoop fuel g seen stack, R x := by
  intro fuel
  induction fuel with
  | zero =>
    intro seen stack hs _ x hx
    simp only [dfsLoop] at hx
    exact hs x hx
  | succ n ih =>
    intro seen stack hs hst x hx
    cases stack with
    | nil =>
      simp only [dfsLoop] at hx
      exact hs x hx
    | cons cur rest =>
      simp only [dfsLoop] at hx
      by_cases hc : cur ∈ seen
      · rw [if_pos hc] at hx
        exact ih seen rest hs (fun y hy => hst y (List.mem_cons_of_mem _ hy)) x hx
      · rw [if_neg hc] at hx
        have hcurR : R cur := hst cur (List.mem_cons_self cur rest)
        refine ih _ _ ?_ ?_ x hx
        · intro y hy
          rcases List.mem_append.mp hy with h | h
          · exact hs y h
          · rw [List.mem_singleton] at h
            subst h
            exact hcurR
        · intro y hy
          rcases List.mem_append.mp hy with h | h
          · exact hclosed cur y hcurR (List.mem_reverse.mp h)
          · exact hst y (List.mem_cons_of_mem _ h)

/-- Bookkeeping for the DFS fuel argument: the total adjacency weight of the
graph entries whose key is not yet seen. -/
def unseenWeight (g : List (String × List String)) (seen : List String) : Nat :=
  match g with
  | [] => 0
  | e :: rest => (if e.1 ∈ seen then 0 else 1 + e.2.length) + unseenWeight rest seen

theorem dfsFuel_eq (g : List (String × List String)) :
    dfsFuel g = 1 + unseenWeight g [] := by
  induction g with
  | nil => rfl
  | cons e rest ih =>
    unfold dfsFuel at ih ⊢
    simp only [List.foldr_cons, unseenWeight]
    rw [ih, if_neg (List.not_mem_nil e.1)]
    omega

theorem depsOf_eq_nil_of_not_key (g : List (String × List String)) (cur : String)
    (h : cur ∉ g.map Prod.fst) : depsOf g cur = [] := by
  induction g with
  | nil => rfl
  | cons e rest ih =>
    obtain ⟨k, v⟩ := e
    simp only [List.map_cons, List.mem_cons, not_or] at h
    unfold depsOf
    rw [List.lookup_cons]
    have hb : (cur == k) = false := beq_eq_false_iff_ne.mpr h.1
    rw [hb]
    exact ih h.2

theorem unseenWeight_append_not_key (g : List (String × List String))
    (seen : List String) (cur : String) (hcur : cur ∉ g.map Prod.fst) :
    unseenWeight g (seen ++ [cur]) = unseenWeight g seen := by
  induction g with
  | nil => rfl
  | cons e rest ih =>
    simp only [List.map_cons, List.mem_cons, not_or] at hcur
    simp only [unseenWeight]
    have hne : e.1 ≠ cur := fun hh => hcur.1 hh.symm
    have hiff : e.1 ∈ seen ++ [cur] ↔ e.1 ∈ seen := by
      rw [List.mem_append, List.mem_singleton]
      exact ⟨fun h => h.elim id (fun h => absurd h hne), Or.inl⟩
    rw [ih hcur.2]
    by_cases hs : e.1 ∈ seen
    · rw [if_pos hs, if_pos (hiff.mpr hs)]
    · rw [if_neg hs, if_neg (fun hh => hs (hiff.mp hh))]

theorem unseenWeight_append_key (g : List (String × List String))
    (hk : (g.map Prod.fst).Nodup) (seen : List String) (cur : String)
    (hmem : cur ∈ g.map Prod.fst) (hnew : cur ∉ seen) :
    unseenWeight g seen = unseenWeight g (seen ++ [cur]) + 1 + (depsOf g cur).length := by
  induction g with
  | nil => simp at hmem
  | cons e rest ih =>
    obtain ⟨k, v⟩ := e
    simp only [List.map_cons] at hk hmem
    have hk1 : k ∉ rest.map Prod.fst := (List.nodup_cons.mp hk).1
    have hk2 := (List.nodup_cons.mp hk).2
    by_cases hck : cur = k
    · subst hck
      have hdep : depsOf ((cur, v) :: rest) cur = v := by
        unfold depsOf
        rw [List.lookup_cons]
        simp
      rw [hdep]
      simp only [unseenWeight]
      have c2 : cur ∈ seen ++ [cur] := List.mem_append_right _ (by simp)
      rw [if_neg hnew, if_pos c2]
      have hrest : unseenWeight rest (seen ++ [cur]) = unseenWeight rest seen := by
        have : cur ∉ rest.map Prod.fst := hk1
        exact unseenWeight_append_not_key rest seen cur this
      rw [hrest]
      omega
    · have hcmem : cur ∈ rest.map Prod.fst := by
        rcases List.mem_cons.mp hmem with h | h
        · exact absurd h hck
        · exact h
      have hdep : depsOf ((k, v) :: rest) cur = depsOf rest cur := by
        unfold depsOf
        rw [List.lookup_cons]
        have hb : (cur == k) = false := beq_eq_false_iff_ne.mpr hck
        rw [hb]
      rw [hdep]
      simp only [unseenWeight]
      have hiff : k ∈ seen ++ [cur] ↔ k ∈ seen := by
        rw [List.mem_append, List.mem_singleton]
        exact ⟨fun h => h.elim id (fun h => absurd h.symm hck), Or.inl⟩
      have ihr := ih hk2 hcmem
      by_cases hs : k ∈ seen
      · rw [if_pos hs, if_pos (hiff.mpr hs)]
        omega
      · rw [if_neg hs, if_neg (fun hh => hs (hiff.mp hh))]
        omega

/-- The DFS with enough fuel is complete: the final `seen` list contains the
initial `seen` and stack, and is closed under dependency edges. -/
theorem dfsLoop_complete (g : List (String × List String))
    (hk : (g.map Prod.fst).Nodup) :
    ∀ (fuel : Nat) (seen stack : List String),
      stack.length + unseenWeight g seen ≤ fuel →
      (∀ x ∈ seen, ∀ r ∈ depsOf g x, r ∈ seen ∨ r ∈ stack) →
      ((∀ x ∈ seen, x ∈ dfsLoop fuel g seen stack) ∧
       (∀ x ∈ stack, x ∈ dfsLoop fuel g seen stack) ∧
       (∀ x ∈ dfsLoop fuel g seen stack, ∀ r ∈ depsOf g x,
          r ∈ dfsLoop fuel g seen stack)) := by
  intro fuel
  induction fuel with
  | zero =>
    intro seen stack hb hinv
    have hstack : stack = [] := by
      cases stack with
      | nil => rfl
      | cons a l => simp at hb
    subst hstack
    simp only [dfsLoop]
    refine ⟨fun x hx => hx, by simp, fun x hx r hr => ?_⟩
    rcases hinv x hx r hr with h | h
    · exact h
    · simp at h
  | succ n ih =>
    intro seen stack hb hinv
    cases stack with
    | nil =>
      simp only [dfsLoop]
      refine ⟨fun x hx => hx, by simp, fun x hx r hr => ?_⟩
      rcases hinv x hx r hr with h | h
      · exact h
      · simp at h
    | cons cur rest =>
      simp only [dfsLoop]
      by_cases hc : cur ∈ seen
      · rw [if_pos hc]
        have hb2 : rest.length + unseenWeight g seen ≤ n := by
          simp only [List.length_cons] at hb
          omega
        have hinv2 : ∀ x ∈ seen, ∀ r ∈ depsOf g x, r ∈ seen ∨ r ∈ rest := by
          intro x hx r hr
          rcases hinv x hx r hr with h | h
          · exact Or.inl h
          · rcases List.mem_cons.mp h with h | h
            · subst h
              exact Or.inl hc
            · exact Or.inr h
        have H := ih seen rest hb2 hinv2
        refine ⟨H.1, ?_, H.2.2⟩
        intro x hx
        rcases List.mem_cons.mp hx with h | h
        · rw [h]
          exact H.1 cur hc
        · exact H.2.1 x h
      · rw [if_neg hc]
        have hb2 : ((depsOf g cur).reverse ++ rest).length +
            unseenWeight g (seen ++ [cur]) ≤ n := by
          by_cases hkey : cur ∈ g.map Prod.fst
          · have hw := unseenWeight_append_key g hk seen cur hkey hc
            simp only [List.length_append, List.length_reverse, List.length_cons] at hb ⊢
            omega
          · have h1 := unseenWeight_append_not_key g seen cur hkey
            have h2 := depsOf_eq_nil_of_not_key g cur hkey
            rw [h2]
            simp only [List.reverse_nil, List.nil_append, List.length_cons] at hb ⊢
            omega
        have hinv2 : ∀ x ∈ seen ++ [cur], ∀ r ∈ depsOf g x,
            r ∈ seen ++ [cur] ∨ r ∈ (depsOf g cur).reverse ++ rest := by
          intro x hx r hr
          rcases List.mem_append.mp hx with h | h
          · rcases hinv x h r hr with h2 | h2
            · exact Or.inl (List.mem_append_left _ h2)
            · rcases List.mem_cons.mp h2 with h3 | h3
              · subst h3
                exact Or.inl (List.mem_append_right _ (by simp))
              · exact Or.inr (List.mem_append_right _ h3)
          · rw [List.mem_singleton] at h
            subst h
            exact Or.inr (List.mem_append_left _ (List.mem_reverse.mpr hr))
        have H := ih (seen ++ [cur]) ((depsOf g cur).reverse ++ rest) hb2 hinv2
        refine ⟨?_, ?_, H.2.2⟩
        · intro x hx
          exact H.1 x (List.mem_append_left _ hx)
        · intro x hx
          rcases List.mem_cons.mp hx with h | h
          · rw [h]
            exact H.1 cur (List.mem_append_right _ (by simp))
          · exact H.2.1 x (List.mem_append_right _ h)

/-- Membership in the depencency graph's edge lists implies a known,
non-self name (used both for C9 and the reachability arguments). -/
theorem mem_depsOf_graph {qs : List (String × String)} {n d : String}
    (h : d ∈ depsOf (queryGraph qs) n) : d ∈ queryKeys qs ∧ d ≠ n := by
  apply mem_depsOf_mapped (queryKeys qs) qs n d
  unfold queryGraph at h
  exact h

/-- The final `seen` set of the chain DFS is exactly the set of nodes
reachable from the target along dependency edges. -/
theorem chainSeen_mem_iff (qs : List (String × String)) (target : String)
    (hk : (queryKeys qs).Nodup) (x : String) :
    x ∈ chainSeen qs target ↔
      Relation.ReflTransGen (depEdge (queryGraph qs)) target x := by
  have hkg : ((queryGraph qs).map Prod.fst).Nodup := by
    rw [queryGraph_keys]
    exact hk
  have hb : ([target] : List String).length + unseenWeight (queryGraph qs) [] ≤
      dfsFuel (queryGraph qs) := by
    rw [dfsFuel_eq]
    simp
  have H := dfsLoop_complete (queryGraph qs) hkg (dfsFuel (queryGraph qs)) [] [target]
    hb (by simp)
  constructor
  · intro hx
    exact dfsLoop_sound (queryGraph qs)
      (Relation.ReflTransGen (depEdge (queryGraph qs)) target)
      (fun a b ha hb2 => Relation.ReflTransGen.tail ha hb2)
      (dfsFuel (queryGraph qs)) [] [target] (by simp)
      (by
        intro y hy
        rw [List.mem_singleton] at hy
        subst hy
        exact Relation.ReflTransGen.refl) x hx
  · intro hreach
    have htarget : target ∈ chainSeen qs target := H.2.1 target (by simp)
    induction hreach with
    | refl => exact htarget
    | tail h1 h2 ih2 => exact H.2.2 _ ih2 _ h2

/--
C3 counterexample: with a reference cycle the target need not be the last
element of its dependency chain.  For `{"A": ref B, "B": ref A}` the sweep
reaches nothing, the global order is the insertion order `["A", "B"]`, and
the chain for target `"A"` is `["A", "B"]` — the target comes first, its
dependency `"B"` last.
-/
theorem dependency_chain_target_not_last :
    dependency_chain_for "A" [("A", "#\"B\""), ("B", "#\"A\"")] = ["A", "B"] ∧
    (dependency_chain_for "A" [("A", "#\"B\""), ("B", "#\"A\"")]).getLast? ≠ some "A" := by
  decide

/--
C3 (amended): for every mapping with distinct names and every target present
in it, `dependency_chain_for` returns a duplicate-free list consisting of
exactly the target together with its transitive dependencies (the names
reachable from the target along dependency-reference edges), listed in the
global topological order; the target occurs in the list exactly once, but it
need not be the last element when the chain crosses a reference cycle.
-/
theorem dependency_chain_characterization (target : String)
    (qs : List (String × String)) (hk : (queryKeys qs).Nodup)
    (ht : target ∈ queryKeys qs) :
    (dependency_chain_for target qs).count target = 1 ∧
    (dependency_chain_for target qs).Nodup ∧
    (∀ n, n ∈ dependency_chain_for target qs ↔
      Relation.ReflTransGen (depEdge (queryGraph qs)) target n) ∧
    (dependency_chain_for target qs).Sublist (topo_order_queries qs) := by
  have hperm := topo_perm_aux qs hk
  have htopo_nodup : (topo_order_queries qs).Nodup := hperm.nodup_iff.mpr hk
  have hchain_eq : dependency_chain_for target qs =
      (topo_order_queries qs).filter (fun n => decide (n ∈ chainSeen qs target)) := by
    unfold dependency_chain_for
    rw [if_neg (not_not_intro ht)]
  have hmem : ∀ n, n ∈ dependency_chain_for target qs ↔
      Relation.ReflTransGen (depEdge (queryGraph qs)) target n := by
    intro n
    rw [hchain_eq, List.mem_filter]
    simp only [decide_eq_true_eq]
    rw [chainSeen_mem_iff qs target hk]
    constructor
    · rintro ⟨_, h⟩
      exact h
    · intro h
      refine ⟨?_, h⟩
      rw [hperm.mem_iff]
      induction h with
      | refl => exact ht
      | tail h1 h2 => exact (mem_depsOf_graph h2).1
  have hnodup : (dependency_chain_for target qs).Nodup := by
    rw [hchain_eq]
    exact htopo_nodup.filter _
  have htmem : target ∈ dependency_chain_for target qs :=
    (hmem target).mpr Relation.ReflTransGen.refl
  refine ⟨List.count_eq_one_of_mem hnodup htmem, hnodup, hmem, ?_⟩
  rw [hchain_eq]
  exact List.filter_sublist _

/-- Witness for C3 at the three-query chain `C → B → A`. -/
theorem dependency_chain_characterization_witness :
    (queryKeys [("A", "1"), ("B", "#\"A\""), ("C", "#\"B\"")]).Nodup ∧
    "C" ∈ queryKeys [("A", "1"), ("B", "#\"A\""), ("C", "#\"B\"")] ∧
    (dependency_chain_for "C" [("A", "1"), ("B", "#\"A\""), ("C", "#\"B\"")]).count "C" = 1 :=
  ⟨by decide, by decide,
   (dependency_chain_characterization "C" [("A", "1"), ("B", "#\"A\""), ("C", "#\"B\"")]
     (by decide) (by decide)).1⟩

/-! ### `m2py_core.convert_m_to_python`

The conversion loop (m2py_core.py lines 81–661).  The per-operation
recognizer/emitter branches (lines 131–641) all have the same state effect:
the first matching branch appends its emitted statements to the buffer and
then runs `env[lhs_raw] = lhs; last_df = lhs; continue` (every branch ends
with exactly those assignments; only the `Excel.CurrentWorkbook` branch
additionally sets `cw_needed`).  The embedding therefore abstracts the
pattern matchers as a `Recognizer` argument returning the emitted lines (and
the `cw_needed` flag) of the first matching branch, or `none` when no
pattern fires; the loop itself — skip rule, `=`-split, environment and
`last_df` updates, fallback policy, header/`__cw` injection, and final
binding — is translated concretely.  The theorems below hold for every
recognizer, hence for the source's regex-based one. -/

/-- The outcome of the ordered pattern-matcher chain on one step: emitted
lines plus the `Excel.CurrentWorkbook` flag, or `none` when no matcher
fires.  Arguments: raw binding name, cleaned right-hand side, current
binding environment. -/
def Recognizer : Type :=
  String → String → List (String × String) → Option (List String × Bool)

/-- `lhs_raw, rhs = raw.split("=", 1); lhs_raw = lhs_raw.strip()`. -/
def stepLhsRaw (raw : String) : String :=
  String.mk (pyStrip (raw.data.takeWhile (fun c => c != '=')))

/-- `rhs = rhs.strip().rstrip(",")` from the same split. -/
def stepRhs (raw : String) : String :=
  String.mk (rstripComma (pyStrip ((raw.data.dropWhile (fun c => c != '=')).drop 1)))

/-- Conversion loop state: the emission buffer (after the header), the
binding environment (a dict read only through `.get`, modelled as an
association list with the newest binding first), `last_df`, `cw_needed`. -/
structure ConvSt where
  lines : List String
  env : List (String × String)
  lastDf : Option String
  cw : Bool

/-- Initial loop state (`py` body empty, `env = {}`, `last_df = None`). -/
def convInit : ConvSt := ⟨[], [], none, false⟩

/-- The two fallback statements of `unsupported(lhs, rhs)`
(m2py_core.py lines 114–121). -/
def unsupLines (lastDf : Option String) (lhsRaw rhs : String) : List String :=
  ("# Unsupported: " ++ lhsRaw ++ " = " ++ rhs) ::
  (match lastDf with
   | some d => [_normalize_var lhsRaw ++ " = " ++ d ++ ".copy()"]
   | none => [_normalize_var lhsRaw ++ " = None  # unsupported start"])

/-- One iteration of `for raw in steps:` (lines 123–644): skip steps without
`=`; otherwise run the first matching recognizer branch (append its lines,
bind the step, update `last_df` and `cw_needed`) or the fallback. -/
def processStep (recognize : Recognizer) (st : ConvSt) (raw : String) : ConvSt :=
  if raw = "" ∨ raw.data.contains '=' = false then st
  else
    match recognize (stepLhsRaw raw) (stepRhs raw) st.env with
    | some r =>
      { lines := st.lines ++ r.1,
        env := (stepLhsRaw raw, _normalize_var (stepLhsRaw raw)) :: st.env,
        lastDf := some (_normalize_var (stepLhsRaw raw)),
        cw := st.cw || r.2 }
    | none =>
      { lines := st.lines ++ unsupLines st.lastDf (stepLhsRaw raw) (stepRhs raw),
        env := st.env,
        lastDf := some (_normalize_var (stepLhsRaw raw)),
        cw := st.cw }

/-! #### The `let … in <name>` regex

`re.search(r"\blet\b(.*)\bin\b\s*((?:#\"[^\"]+\"|[A-Za-z_][A-Za-z0-9_\.]*))\s*$",
m_code, re.S | re.I)` (lines 96–99): the leftmost case-insensitive
word-bounded `let` from which the rest of the pattern matches; the greedy
`(.*)` picks the rightmost word-bounded `in` whose tail is optional
whitespace, then the output name (escaped-quoted or dotted-identifier
form), then whitespace to the end. -/

/-- Position `i` of `s` holds a word character. -/
def isWordAt (s : List Char) (i : Nat) : Bool :=
  decide (i < s.length) && isWordChar (s.getD i ' ')

/-- Case-insensitive keyword match at position `i`. -/
def matchKeyAt (s : List Char) (i : Nat) (kw : List Char) : Bool :=
  ((s.drop i).take kw.length).map toLowerChar == kw

/-- `\b` before a word-character position `i`. -/
def boundaryBefore (s : List Char) (i : Nat) : Bool :=
  i == 0 || !(isWordAt s (i - 1))

/-- `\b` after a word that ends just before position `j`. -/
def boundaryAfter (s : List Char) (j : Nat) : Bool := !(isWordAt s j)

/-- Identifier-or-dot class `[A-Za-z0-9_\.]`. -/
def identDotChar (c : Char) : Bool := isWordChar c || c == '.'

/-- Match `\s*((?:#"[^"]+"|[A-Za-z_][A-Za-z0-9_\.]*))\s*$` against the text
after an `in` keyword, returning the raw matched name (group 2). -/
def tailNameMatch (t : List Char) : Option (List Char) :=
  match t.dropWhile pyWsChar with
  | '#' :: '"' :: rest =>
    if (rest.takeWhile (fun c => c != '"')) ≠ [] ∧
        (rest.drop (rest.takeWhile (fun c => c != '"')).length).head? = some '"' ∧
        ((rest.drop ((rest.takeWhile (fun c => c != '"')).length + 1)).all pyWsChar) then
      some ('#' :: '"' :: (rest.takeWhile (fun c => c != '"')) ++ ['"'])
    else none
  | c :: rest =>
    if isLetterChar c || c == '_' then
      if (rest.dropWhile identDotChar).all pyWsChar then
        some (c :: rest.takeWhile identDotChar)
      else none
    else none
  | [] => none

/-- `\bin\b` at position `j` followed by a matching tail. -/
def inMatchAt (cs : List Char) (j : Nat) : Option (List Char) :=
  if boundaryBefore cs j && matchKeyAt cs j ['i', 'n'] && boundaryAfter cs (j + 2) then
    tailNameMatch (cs.drop (j + 2))
  else none

/-- A full match of the `let … in` pattern anchored at `let`-position `p`:
the rightmost viable `in` (greedy `(.*)`), with the matched output name. -/
def letMatchAt (cs : List Char) (p : Nat) : Option (Nat × List Char) :=
  if boundaryBefore cs p && matchKeyAt cs p ['l', 'e', 't'] && boundaryAfter cs (p + 3) then
    match ((List.range cs.length).filter
        (fun j => decide (p + 3 ≤ j) && (inMatchAt cs j).isSome)).getLast? with
    | some j => some (j, (inMatchAt cs j).getD [])
    | none => none
  else none

/-- The `re.search` for the `let … in <name>` pattern: the leftmost `let`
position with a full match; returns (let body, raw output name). -/
def findLetMatch (s : String) : Option (String × String) :=
  match ((List.range s.data.length).filter
      (fun p => (letMatchAt s.data p).isSome)).head? with
  | some p =>
    match letMatchAt s.data p with
    | some jn => some (String.mk ((s.data.drop (p + 3)).take (jn.1 - (p + 3))),
        String.mk jn.2)
    | none => none
  | none => none

/-- The step list fed to the loop: the split `let` body, or the whole
stripped script when the `let … in` pattern does not match (lines 100–107). -/
def stepsOf (m_code : String) : List String :=
  match findLetMatch m_code with
  | some bm => _split_let_body bm.1
  | none => _split_let_body (String.mk (pyStrip m_code.data))

/-- The state after the conversion loop. -/
def convState (recognize : Recognizer) (m_code : String) : ConvSt :=
  (stepsOf m_code).foldl (processStep recognize) convInit

/-- The import preamble (lines 87–91). -/
def headerLines : List String := ["import pandas as pd", "import numpy as np", ""]

/-- The two lines injected after the header when `Excel.CurrentWorkbook`
was referenced (lines 647–652). -/
def cwInject : List String :=
  ["if '__cw' not in globals():\n    __cw = {}  # filled by Excel (Windows/COM) tab; maps Name -> DataFrame",
   ""]

/-- The final binding target (lines 654–659):
`env.get(out_name_raw, last_df or out_name)` when the `let … in` pattern
matched, else `last_df or out_name`, with `out_name = _normalize_var(query_name)`. -/
def outRef (recognize : Recognizer) (m_code query_name : String) : String :=
  match findLetMatch m_code with
  | some bm =>
    (List.lookup bm.2 (convState recognize m_code).env).getD
      ((convState recognize m_code).lastDf.getD (_normalize_var query_name))
  | none => (convState recognize m_code).lastDf.getD (_normalize_var query_name)

/-- The emission buffer `py` just before the final `add` (header, optional
`__cw` guard, loop output). -/
def convert_pre (recognize : Recognizer) (m_code : String) : List String :=
  headerLines ++ (if (convState recognize m_code).cw then cwInject else []) ++
    (convState recognize m_code).lines

/-- The full emission buffer: `convert_pre` plus exactly one trailing alias
statement (line 660). -/
def convert_lines (recognize : Recognizer) (m_code query_name : String) : List String :=
  convert_pre recognize m_code ++
    [_normalize_var query_name ++ " = " ++ outRef recognize m_code query_name]

/-- `"\n".join(py)`. -/
def joinLinesStr (ls : List String) : String :=
  String.mk (joinLines (ls.map String.data))

/-- `m2py_core.convert_m_to_python` (the caller-facing entry point; the
Python default for `query_name` is `"Result"`). -/
def convert_m_to_python (recognize : Recognizer) (m_code : String)
    (query_name : String) : String :=
  joinLinesStr (convert_lines recognize m_code query_name)

/-! ### The final binding always aliases to a valid identifier (claim C1) -/

theorem normalize_var_valid (s : String) : isValidIdent (_normalize_var s) = true := by
  unfold _normalize_var
  rw [isValidIdent_mk]
  exact normalizeVarCore_valid s.data

theorem lookup_mem_pair {k v : String} :
    ∀ {env : List (String × String)}, List.lookup k env = some v → (k, v) ∈ env := by
  intro env
  induction env with
  | nil =>
    intro h
    simp [List.lookup] at h
  | cons e rest ih =>
    obtain ⟨a, b⟩ := e
    intro h
    rw [List.lookup_cons] at h
    cases hb : k == a with
    | true =>
      rw [hb] at h
      simp only [Option.some.injEq] at h
      have hka : k = a := by simpa using hb
      subst hka
      rw [← h]
      exact List.mem_cons_self _ _
    | false =>
      rw [hb] at h
      exact List.mem_cons_of_mem _ (ih h)

theorem processStep_valid (recognize : Recognizer) (st : ConvSt) (raw : String)
    (henv : ∀ e ∈ st.env, isValidIdent e.2 = true)
    (hdf : ∀ d, st.lastDf = some d → isValidIdent d = true) :
    (∀ e ∈ (processStep recognize st raw).env, isValidIdent e.2 = true) ∧
    (∀ d, (processStep recognize st raw).lastDf = some d → isValidIdent d = true) := by
  unfold processStep
  by_cases hc : raw = "" ∨ raw.data.contains '=' = false
  · rw [if_pos hc]
    exact ⟨henv, hdf⟩
  · rw [if_neg hc]
    cases hr : recognize (stepLhsRaw raw) (stepRhs raw) st.env with
    | some r =>
      constructor
      · intro e he
        rcases List.mem_cons.mp he with h | h
        · rw [h]
          exact normalize_var_valid _
        · exact henv e h
      · intro d hd
        simp only [Option.some.injEq] at hd
        rw [← hd]
        exact normalize_var_valid _
    | none =>
      constructor
      · intro e he
        exact henv e he
      · intro d hd
        simp only [Option.some.injEq] at hd
        rw [← hd]
        exact normalize_var_valid _

theorem foldl_processStep_valid (recognize : Recognizer) (steps : List String) :
    ∀ st : ConvSt, (∀ e ∈ st.env, isValidIdent e.2 = true) →
      (∀ d, st.lastDf = some d → isValidIdent d = true) →
      ((∀ e ∈ (steps.foldl (processStep recognize) st).env, isValidIdent e.2 = true) ∧
       (∀ d, (steps.foldl (processStep recognize) st).lastDf = some d →
         isValidIdent d = true)) := by
  induction steps with
  | nil =>
    intro st henv hdf
    exact ⟨henv, hdf⟩
  | cons raw rest ih =>
    intro st henv hdf
    have hstep := processStep_valid recognize st raw henv hdf
    exact ih (processStep recognize st raw) hstep.1 hstep.2

theorem convState_valid (recognize : Recognizer) (m_code : String) :
    (∀ e ∈ (convState recognize m_code).env, isValidIdent e.2 = true) ∧
    (∀ d, (convState recognize m_code).lastDf = some d → isValidIdent d = true) :=
  foldl_processStep_valid recognize (stepsOf m_code) convInit (by simp [convInit])
    (by intro d hd; simp [convInit] at hd)

theorem outRef_valid (recognize : Recognizer) (m_code query_name : String) :
    isValidIdent (outRef recognize m_code query_name) = true := by
  have hst := convState_valid recognize m_code
  have hdefault :
      isValidIdent ((convState recognize m_code).lastDf.getD (_normalize_var query_name)) =
        true := by
    cases hdf : (convState recognize m_code).lastDf with
    | none =>
      rw [Option.getD_none]
      exact normalize_var_valid _
    | some d =>
      rw [Option.getD_some]
      exact hst.2 d hdf
  unfold outRef
  cases hlm : findLetMatch m_code with
  | none => exact hdefault
  | some bm =>
    show isValidIdent ((List.lookup bm.2 (convState recognize m_code).env).getD
      ((convState recognize m_code).lastDf.getD (_normalize_var query_name))) = true
    cases hl : List.lookup bm.2 (convState recognize m_code).env with
    | some v =>
      rw [Option.getD_some]
      exact hst.1 (bm.2, v) (lookup_mem_pair hl)
    | none =>
      rw [Option.getD_none]
      exact hdefault

theorem mk_data (s : String) : String.mk s.data = s := rfl

theorem mk_append (a b : List Char) : String.mk a ++ String.mk b = String.mk (a ++ b) := rfl

theorem joinLines_append_singleton (ls : List (List Char)) (x : List Char) (h : ls ≠ []) :
    joinLines (ls ++ [x]) = joinLines ls ++ '\n' :: x := by
  induction ls with
  | nil => exact absurd rfl h
  | cons l rest ih =>
    cases rest with
    | nil => simp [joinLines]
    | cons l2 rest2 =>
      have hne : (l2 :: rest2) ≠ [] := by simp
      have ih2 := ih hne
      simp only [List.cons_append] at ih2 ⊢
      simp only [joinLines]
      rw [ih2]
      simp

theorem joinLinesStr_append_singleton (ls : List String) (x : String) (h : ls ≠ []) :
    joinLinesStr (ls ++ [x]) = joinLinesStr ls ++ "\n" ++ x := by
  unfold joinLinesStr
  rw [List.map_append]
  simp only [List.map_cons, List.map_nil]
  rw [joinLines_append_singleton _ _ (by simpa using h)]
  rw [← mk_data x]
  rw [show ("\n" : String) = String.mk ['\n'] from rfl]
  rw [mk_append, mk_append]
  simp

/--
C1: for every recognizer, script and query name, `convert_m_to_python`
terminates (it is a total function) and its output is the emitted buffer
followed by exactly one trailing alias statement: the normalized query name
bound to an identifier of shape `[A-Za-z_][A-Za-z0-9_]*` — including when
the script is empty, has no `in` clause, or no step matches any pattern.
-/
theorem convert_single_trailing_alias (recognize : Recognizer)
    (m_code query_name : String) :
    isValidIdent (_normalize_var query_name) = true ∧
    isValidIdent (outRef recognize m_code query_name) = true ∧
    convert_m_to_python recognize m_code query_name =
      joinLinesStr (convert_pre recognize m_code) ++ "\n" ++
        (_normalize_var query_name ++ " = " ++ outRef recognize m_code query_name) := by
  refine ⟨normalize_var_valid _, outRef_valid _ _ _, ?_⟩
  unfold convert_m_to_python convert_lines
  rw [joinLinesStr_append_singleton]
  unfold convert_pre headerLines
  simp

/-! ### The fallback policy (claim C8) -/

theorem processStep_unsup (recognize : Recognizer) (st : ConvSt) (raw : String)
    (hne : raw ≠ "") (heq : raw.data.contains '=' = true)
    (hrec : recognize (stepLhsRaw raw) (stepRhs raw) st.env = none) :
    (processStep recognize st raw).lines =
      st.lines ++ unsupLines st.lastDf (stepLhsRaw raw) (stepRhs raw) := by
  have hcond : ¬(raw = "" ∨ raw.data.contains '=' = false) := by
    rintro (h | h)
    · exact hne h
    · rw [heq] at h
      cases h
  unfold processStep
  rw [if_neg hcond, hrec]

theorem unsupLines_eq (df : Option String) (l r : String) :
    unsupLines df l r = ("# Unsupported: " ++ l ++ " = " ++ r) ::
      (match df with
       | some d => _normalize_var l ++ " = " ++ d ++ ".copy()"
       | none => _normalize_var l ++ " = None  # unsupported start") :: [] := by
  cases df <;> rfl

theorem processStep_lines_mono (recognize : Recognizer) (st : ConvSt) (raw : String) :
    ∃ δ, (processStep recognize st raw).lines = st.lines ++ δ := by
  unfold processStep
  by_cases hc : raw = "" ∨ raw.data.contains '=' = false
  · rw [if_pos hc]
    exact ⟨[], by simp⟩
  · rw [if_neg hc]
    cases hr : recognize (stepLhsRaw raw) (stepRhs raw) st.env with
    | some r => exact ⟨r.1, rfl⟩
    | none => exact ⟨unsupLines st.lastDf (stepLhsRaw raw) (stepRhs raw), rfl⟩

theorem foldl_lines_mono (recognize : Recognizer) (steps : List String) :
    ∀ st : ConvSt, ∃ δ, (steps.foldl (processStep recognize) st).lines = st.lines ++ δ := by
  induction steps with
  | nil =>
    intro st
    exact ⟨[], by simp⟩
  | cons raw rest ih =>
    intro st
    obtain ⟨δ1, h1⟩ := processStep_lines_mono recognize st raw
    obtain ⟨δ2, h2⟩ := ih (processStep recognize st raw)
    exact ⟨δ1 ++ δ2, by rw [List.foldl_cons, h2, h1, List.append_assoc]⟩

/--
C8: every splitter step of the form `name = expression` on which no
recognizer pattern fires is preserved, not dropped: the emission buffer
contains, contiguously, the inert marker comment carrying the step's name
and expression, followed by the fallback assignment — a copy of the most
recently produced table under the step's normalized name, or the explicit
`None  # unsupported start` placeholder when no table was produced yet
(these two statements are `unsupLines`, the translation of `unsupported`).
Steps without an `=` are skipped by the loop before any recognizer runs,
so the hypothesis restricts to `name = expression` steps.
-/
theorem convert_unsupported_fallback (recognize : Recognizer)
    (m_code query_name : String) (pre post : List String) (raw : String)
    (hsteps : stepsOf m_code = pre ++ raw :: post)
    (hne : raw ≠ "")
    (heq : raw.data.contains '=' = true)
    (hrec : recognize (stepLhsRaw raw) (stepRhs raw)
      (pre.foldl (processStep recognize) convInit).env = none) :
    ∃ before after : List String,
      convert_lines recognize m_code query_name =
        before ++
          unsupLines (pre.foldl (processStep recognize) convInit).lastDf
            (stepLhsRaw raw) (stepRhs raw) ++ after := by
  have hsplit : convState recognize m_code =
      post.foldl (processStep recognize)
        (processStep recognize (pre.foldl (processStep recognize) convInit) raw) := by
    unfold convState
    rw [hsteps, List.foldl_append, List.foldl_cons]
  have hstep : (processStep recognize (pre.foldl (processStep recognize) convInit) raw).lines =
      (pre.foldl (processStep recognize) convInit).lines ++
        unsupLines (pre.foldl (processStep recognize) convInit).lastDf
          (stepLhsRaw raw) (stepRhs raw) :=
    processStep_unsup recognize (pre.foldl (processStep recognize) convInit) raw hne heq hrec
  obtain ⟨δ, hδ⟩ := foldl_lines_mono recognize post
    (processStep recognize (pre.foldl (processStep recognize) convInit) raw)
  have hlines : (convState recognize m_code).lines =
      (pre.foldl (processStep recognize) convInit).lines ++
        unsupLines (pre.foldl (processStep recognize) convInit).lastDf
          (stepLhsRaw raw) (stepRhs raw) ++ δ := by
    rw [hsplit, hδ, hstep]
  refine ⟨headerLines ++ (if (convState recognize m_code).cw then cwInject else []) ++
    (pre.foldl (processStep recognize) convInit).lines,
    δ ++ [_normalize_var query_name ++ " = " ++ outRef recognize m_code query_name], ?_⟩
  unfold convert_lines convert_pre
  rw [hlines]
  simp [List.append_assoc]

set_option maxRecDepth 8192 in
/-- Witness for C8: with a recognizer on which nothing matches, the first
step of a two-step script is preserved as marker comment plus `None`
placeholder. -/
theorem convert_unsupported_fallback_witness :
    ∃ before after : List String,
      convert_lines (fun _ _ _ => none) "let A = Foo(), B = Unknown() in B" "Q" =
        before ++ ["# Unsupported: A = Foo()", "A = None  # unsupported start"] ++ after := by
  obtain ⟨b, c, h⟩ := convert_unsupported_fallback (fun _ _ _ => none)
    "let A = Foo(), B = Unknown() in B" "Q" [] ["B = Unknown()"] "A = Foo()"
    (by decide) (by decide) (by decide) rfl
  have e2 : unsupLines
      (List.foldl (processStep (fun _ _ _ => none)) convInit ([] : List String)).lastDf
      (stepLhsRaw "A = Foo()") (stepRhs "A = Foo()") =
      ["# Unsupported: A = Foo()", "A = None  # unsupported start"] := by
    decide
  rw [e2] at h
  exact ⟨b, c, h⟩

/-! ### Determinism (claim C10) -/

/--
C10: `convert_m_to_python` and `topo_order_queries` are pure, deterministic
functions of their arguments: two invocations on equal inputs produce equal
outputs.  (In this embedding both are total Lean functions of their inputs
alone, mirroring the source, which reads and writes no module-level mutable
state; freedom from in-place argument mutation and from state retained
between calls is inherent in the functional embedding.)
-/
theorem convert_topo_pure_deterministic :
    (∀ (recognize : Recognizer) (m₁ m₂ q₁ q₂ : String), m₁ = m₂ → q₁ = q₂ →
      convert_m_to_python recognize m₁ q₁ = convert_m_to_python recognize m₂ q₂) ∧
    (∀ qs₁ qs₂ : List (String × String), qs₁ = qs₂ →
      topo_order_queries qs₁ = topo_order_queries qs₂) := by
  constructor
  · intro r m₁ m₂ q₁ q₂ hm hq
    rw [hm, hq]
  · intro a b h
    rw [h]

/-- Witness for C10 at concrete equal inputs. -/
theorem convert_topo_pure_deterministic_witness :
    convert_m_to_python (fun _ _ _ => none) "let A = 1 in A" "Q" =
      convert_m_to_python (fun _ _ _ => none) "let A = 1 in A" "Q" ∧
    topo_order_queries [("A", "1")] = topo_order_queries [("A", "1")] :=
  ⟨convert_topo_pure_deterministic.1 (fun _ _ _ => none) "let A = 1 in A"
      "let A = 1 in A" "Q" "Q" rfl rfl,
   convert_topo_pure_deterministic.2 [("A", "1")] [("A", "1")] rfl⟩

end M2py
